import Mathlib

/-!
# Verification of the retrieval-augmented QA core of the al-fiqh chatbot

Shallow embedding of the citation-rendering frontend code
(`frontend/components/chat/chat-message.tsx`, `frontend/app/chat/page.tsx`)
and of the retrieval / MMR / context-assembly core described in the
system documentation, together with proofs of the specified properties.

Strings are modelled as `List Char`; JavaScript numbers appearing as
citation indices are modelled exactly (`Nat` / `Int`); similarity scores
are modelled as `Rat`.
-/

set_option linter.unusedVariables false

namespace ChatFrontend

/-- A retrieved source reference as the frontend receives it
(`SourceReference` in `lib/api`; only the fields the citation logic
touches are kept). -/
structure SourceReference where
  pdf_title : String
  chunk_text : String
deriving DecidableEq, Repr

/-- The optional citation map `{ [key: number]: number } | null` of
`chat-message.tsx`, modelled as an association list. -/
def CitationMap := List (Nat × Int)

/-- JavaScript object lookup `citationMap[citationNum]` on the
association list model. -/
def lookupCM (m : List (Nat × Int)) (k : Nat) : Option Int :=
  match m with
  | [] => none
  | (a, b) :: rest => if a = k then some b else lookupCM rest k

/-- Line 82 of `chat-message.tsx`:
`citationMap ? (citationMap[citationNum] ?? citationNum - 1) : citationNum - 1`. -/
def resolveRefIndex (citationMap : Option (List (Nat × Int))) (citationNum : Nat) : Int :=
  match citationMap with
  | some m =>
    match lookupCM m citationNum with
    | some v => v
    | none => (citationNum : Int) - 1
  | none => (citationNum : Int) - 1

/-- Split a character list into its maximal leading run of decimal
digits and the remainder (the greedy `\d+` of the citation regex). -/
def takeDigits : List Char → List Char × List Char
  | [] => ([], [])
  | c :: rest =>
    if c.isDigit then
      let p := takeDigits rest
      (c :: p.1, p.2)
    else ([], c :: rest)

/-- Try to match the citation regex `\[(\d+)\]` at the head of the
text; on success return the captured digit group and the remainder of
the text after the match (what `citationRegex.exec` finds at one
position). -/
def matchCite : List Char → Option (List Char × List Char)
  | [] => none
  | c :: rest =>
    if c = '[' then
      if (takeDigits rest).1.isEmpty then none
      else
        match (takeDigits rest).2 with
        | ']' :: r => some ((takeDigits rest).1, r)
        | _ => none
    else none

/-- A raw piece of the answer text produced by the regex scan: either a
run of plain text, or the digit group of one citation marker. -/
inductive RawPart where
  | text (cs : List Char)
  | cite (digits : List Char)
deriving DecidableEq, Repr

/-- The `while ((match = citationRegex.exec(text)) !== null)` loop of
`parseCitations` (lines 72–97): advance position by position; where the
regex matches, flush the accumulated plain text and emit the citation,
then continue after the match.  `fuel` bounds the number of steps (the
caller passes the text length, which always suffices). -/
def scanParts : Nat → List Char → List Char → List RawPart
  | 0, acc, cs => if (acc.reverse ++ cs).isEmpty then [] else [.text (acc.reverse ++ cs)]
  | fuel + 1, acc, cs =>
    match cs with
    | [] => if acc.isEmpty then [] else [.text acc.reverse]
    | c :: rest =>
      match matchCite (c :: rest) with
      | some (ds, r) =>
        (if acc.isEmpty then ([] : List RawPart) else [.text acc.reverse]) ++
          .cite ds :: scanParts fuel [] r
      | none => scanParts fuel (c :: acc) rest

/-- `parseInt(match[1], 10)` on a digit group. -/
def digitsVal (ds : List Char) : Nat :=
  ds.foldl (fun a c => a * 10 + (c.toNat - 48)) 0

/-- One entry of the `parts` array built by `parseCitations`: a plain
text chunk, or a citation with its parsed number and the reference
index stored for it (`-1` marks an unresolved citation, line 88). -/
inductive Part where
  | text (s : List Char)
  | citation (num : Nat) (refIndex : Int)
deriving DecidableEq, Repr

/-- Lines 79–89 of `chat-message.tsx`: compute the citation number and
reference index for one matched marker, storing `-1` when the resolved
index is out of range of the reference list. -/
def toPart (references : List SourceReference) (citationMap : Option (List (Nat × Int))) :
    RawPart → Part
  | .text cs => .text cs
  | .cite ds =>
    let citationNum := digitsVal ds
    let refIndex := resolveRefIndex citationMap citationNum
    if 0 ≤ refIndex ∧ refIndex < (references.length : Int) then
      .citation citationNum refIndex
    else
      .citation citationNum (-1)

/-- `parseCitations` of `chat-message.tsx` (lines 65–100), including the
final `return parts.length > 0 ? parts : [text]`. -/
def parseCitations (text : List Char) (references : List SourceReference)
    (citationMap : Option (List (Nat × Int))) : List Part :=
  let parts := (scanParts text.length [] text).map (toPart references citationMap)
  if parts.length > 0 then parts else [.text text]

/-- What the component renders for one part (lines 106–190): plain text;
an "N/A – Reference not available" badge for an invalid citation; or a
clickable link to the reference for a valid one. -/
inductive Rendered where
  | plain (s : List Char)
  | unavailable (num : Nat)
  | link (num : Nat) (refIndex : Nat) (ref : SourceReference)
deriving DecidableEq, Repr

/-- Lines 106–126 of `chat-message.tsx`:
`isValidCitation = part.refIndex >= 0 && part.refIndex < references.length`,
`ref = isValidCitation ? references[part.refIndex] : null`, and the
invalid branch renders the distinct unavailable badge. -/
def renderPart (references : List SourceReference) : Part → Rendered
  | .text s => .plain s
  | .citation num refIndex =>
    if 0 ≤ refIndex ∧ refIndex < (references.length : Int) then
      match references[refIndex.toNat]? with
      | some ref => .link num refIndex.toNat ref
      | none => .unavailable num
    else
      .unavailable num

/-- Concatenation of raw scan parts, a citation rendered as its literal
matched text `'['` + digits + `']'`. -/
def joinRaw (parts : List RawPart) : List Char :=
  match parts with
  | [] => []
  | .text s :: rest => s ++ joinRaw rest
  | .cite ds :: rest => '[' :: ds ++ ']' :: joinRaw rest

/-- Does the citation pattern `\[\d+\]` occur anywhere in the text? -/
def hasCite (cs : List Char) : Bool :=
  match cs with
  | [] => false
  | c :: rest => (matchCite (c :: rest)).isSome || hasCite rest

/-- The literal text the component renders for a citation part:
`[{part.num}]` (lines 122 and 156 of `chat-message.tsx`). -/
def markerText (num : Nat) : List Char :=
  '[' :: Nat.toDigits 10 num ++ [']']

/-- Concatenate the rendered parts of `parseCitations` in order: plain
text literally, each citation as its rendered marker text. -/
def flattenParts (parts : List Part) : List Char :=
  match parts with
  | [] => []
  | .text s :: rest => s ++ flattenParts rest
  | .citation n _ :: rest => markerText n ++ flattenParts rest

/-- A raw part whose digits are the canonical decimal numeral of their
value (no leading zeros). -/
def canonicalCite : RawPart → Bool
  | .text _ => true
  | .cite ds => Nat.toDigits 10 (digitsVal ds) == ds

/-- One stored conversation turn as returned by
`getSessionConversations` (only the fields `handleSelectChat` reads). -/
structure Conversation where
  conversation_id : String
  question : String
  answer : String
deriving DecidableEq, Repr

/-- A chat message as the frontend state holds it (`Message` in
`app/chat/page.tsx`; only the fields the citation logic touches). -/
structure Message where
  id : String
  question : String
  answer : String
  references : List SourceReference
  total_references_found : Nat
  collections_searched : List String
  citation_map : Option (List (Nat × Int))
deriving DecidableEq, Repr

/-- Lines 174–182 of `app/chat/page.tsx` (`handleSelectChat`): rebuild a
message from a stored conversation, with an empty reference list and a
null citation map.  `conv.conversation_id || msg_idx` falls back on the
synthetic id exactly when the stored id is the empty string. -/
def restoreMessage (conv : Conversation) (idx : Nat) : Message :=
  { id := if conv.conversation_id = "" then "msg_" ++ toString idx else conv.conversation_id
    question := conv.question
    answer := conv.answer
    references := []
    total_references_found := 0
    collections_searched := []
    citation_map := none }

end ChatFrontend


namespace RagCore

/-- Modelled from the spec: a `Passage` (§3) — the backend service
(`rag_service.py`) is not part of the released sources, so the retrieval
core is reconstructed from the specification.  The embedding vector is
not materialised: every use of vector similarity below takes the metric
as an explicit function parameter. -/
structure Passage where
  id : String
  text : String
  title : String
deriving DecidableEq, Repr

/-- Modelled from the spec: a `Candidate` (§3) — a passage annotated
with its per-query similarity score and the collection it came from. -/
structure Candidate where
  passage : Passage
  score : Rat
  collection : String
deriving DecidableEq, Repr

/-- Modelled from the spec: one `(id, score, payload)` entry returned by
the VectorIndex capability (§6). -/
structure SearchHit where
  id : String
  score : Rat
  payload : Passage
deriving DecidableEq, Repr

/-- Modelled from the spec: `max_similarity(candidate, selected)` of
§4.2 — the highest pairwise similarity between the candidate and any
already-selected item, `0` if the selected set is empty. -/
def maxSimTo (sim : Candidate → Candidate → Rat) (c : Candidate) :
    List Candidate → Rat
  | [] => 0
  | s :: rest => rest.foldl (fun m x => max m (sim c x)) (sim c s)

/-- Modelled from the spec: the MMR objective of §4.2,
`diversity_weight * relevance(c) - (1 - diversity_weight) * max_similarity(c, selected)`. -/
def mmrScore (sim : Candidate → Candidate → Rat) (diversity_weight : Rat)
    (selected : List Candidate) (c : Candidate) : Rat :=
  diversity_weight * c.score - (1 - diversity_weight) * maxSimTo sim c selected

/-- Modelled from the spec: pick the candidate with the highest value of
`f`, ties broken by original candidate order (§4.2 step 3); returns the
winner and the remaining candidates in their original order. -/
def selectBest (f : Candidate → Rat) : List Candidate → Option (Candidate × List Candidate)
  | [] => none
  | c :: rest =>
    match selectBest f rest with
    | none => some (c, [])
    | some (b, rb) => if f b > f c then some (b, c :: rb) else some (c, rest)

/-- Modelled from the spec: the MMR selection loop of §4.2 — repeat
until `final_count` items are selected or candidates are exhausted. -/
def mmrLoop (sim : Candidate → Candidate → Rat) (diversity_weight : Rat) :
    Nat → List Candidate → List Candidate → List Candidate
  | 0, _, selected => selected.reverse
  | k + 1, remaining, selected =>
    match selectBest (mmrScore sim diversity_weight selected) remaining with
    | none => selected.reverse
    | some (b, rest) => mmrLoop sim diversity_weight k rest (b :: selected)

/-- Modelled from the spec: `DiversityRanker.select` (§4.2). -/
def DiversityRanker.select (sim : Candidate → Candidate → Rat)
    (candidates : List Candidate) (final_count : Nat)
    (diversity_weight : Rat) : List Candidate :=
  mmrLoop sim diversity_weight final_count candidates []

/-- Insert a candidate into a descending-by-score list, before the first
strictly smaller score (stable with respect to original order). -/
def insertDesc (c : Candidate) : List Candidate → List Candidate
  | [] => [c]
  | x :: xs => if c.score ≥ x.score then c :: x :: xs else x :: insertDesc c xs

/-- The spec-side ordering of §4.1/§8 P4 in its own words: the candidate
list sorted by descending original relevance score, ties kept in stable
input order. -/
def sortByScoreDesc (l : List Candidate) : List Candidate :=
  l.foldr insertDesc []

/-- Modelled from the spec: `CandidateRetriever.retrieve` (§4.1) — embed
the question once, query each target collection, record failed
collections instead of aborting, drop candidates below `min_score`
unconditionally, and merge by descending score with stable ties.
Returns the merged filtered candidates and the failed collection
names. -/
def CandidateRetriever.retrieve (embed : String → List Rat)
    (search : String → List Rat → Nat → Except String (List SearchHit))
    (question : String) (collections : List String) (min_score : Rat)
    (initial_count : Nat) : List Candidate × List String :=
  let qv := embed question
  let p := collections.foldl
    (fun (acc : List Candidate × List String) (c : String) =>
      match search c qv initial_count with
      | .ok hits => (acc.1 ++ hits.map (fun h => ⟨h.payload, h.score, c⟩), acc.2)
      | .error _ => (acc.1, acc.2 ++ [c]))
    ([], [])
  (sortByScoreDesc (p.1.filter (fun cd => min_score ≤ cd.score)), p.2)

/-- Modelled from the spec: sentence/paragraph boundary characters for
smart truncation (§4.3): end-of-sentence punctuation or a newline. -/
def isBoundaryChar (c : Char) : Bool :=
  c = '.' || c = '!' || c = '?' || c = '\n'

/-- Modelled from the spec: the compact per-passage format of §4.3 — a
minimal prefix identifying the source title, the passage text, and a
newline separator. -/
def formatRef (r : Candidate) : List Char :=
  '[' :: r.passage.title.data ++ ']' :: ' ' :: r.passage.text.data ++ ['\n']

/-- The longest prefix of the text ending at a sentence or paragraph
boundary; empty when no boundary occurs at all. -/
def lastBoundaryCut (l : List Char) : List Char :=
  ((l.reverse.dropWhile (fun c => !isBoundaryChar c)).reverse)

/-- Modelled from the spec: `AssembledContext` (§3) — the assembled text
with the reference list it was built from and the truncation flag for
diagnostics. -/
structure AssembledContext where
  text : List Char
  references : List Candidate
  truncated : Bool
deriving DecidableEq, Repr

/-- Modelled from the spec: the concatenation loop of §4.3 — append
whole formatted passages while they fit; at the first passage that would
overflow, append only its prefix cut at the nearest sentence/paragraph
boundary within the remaining space (possibly nothing) and stop,
flagging the truncation. -/
def assembleGo (max_length : Nat) : List Candidate → List Char → List Char × Bool
  | [], txt => (txt, false)
  | r :: rest, txt =>
    let f := formatRef r
    if txt.length + f.length ≤ max_length then
      assembleGo max_length rest (txt ++ f)
    else
      (txt ++ lastBoundaryCut (f.take (max_length - txt.length)), true)

/-- Modelled from the spec: `ContextAssembler.assemble` (§4.3); passages
that did not fit stay in the visible reference list. -/
def ContextAssembler.assemble (references : List Candidate)
    (max_length : Nat) : AssembledContext :=
  let p := assembleGo max_length references []
  ⟨p.1, references, p.2⟩

/-- Modelled from the spec: `QueryRequest` (§3), the fields the core
reads. -/
structure QueryRequest where
  question : String
  collections : List String
  min_score : Rat
deriving DecidableEq, Repr

/-- Modelled from the spec: the configuration record of §9 (explicit
configuration instead of ambient settings). -/
structure RagConfig where
  initial_count : Nat
  final_count : Nat
  diversity_weight : Rat
  max_length : Nat
deriving DecidableEq, Repr

/-- Modelled from the spec: the diagnostics block of §6 — failed
collections, whether truncation occurred, whether the no-evidence
short-circuit fired. -/
structure Diagnostics where
  failed_collections : List String
  truncated : Bool
  no_evidence : Bool
deriving DecidableEq, Repr

/-- Modelled from the spec: the outcome taxonomy of §4.5/§7 — success,
the distinguished NoEvidenceFound success, or UpstreamGenerationFailure
still carrying the computed references. -/
inductive AnswerStatus where
  | ok
  | noEvidence
  | generationFailed (err : String)
deriving DecidableEq, Repr

/-- Modelled from the spec: the structured result of
`AnswerOrchestrator.answer` (§4.5). -/
structure AnswerResult where
  status : AnswerStatus
  answer_text : String
  references : List Candidate
  collections_searched : List String
  diagnostics : Diagnostics
deriving DecidableEq, Repr

/-- Modelled from the spec: `AnswerOrchestrator.answer` (§4.5) — the
ordered pipeline retrieve → (short-circuit on no evidence) → diversity
rank → assemble → LLM → result, with LLM failure surfaced as a
distinguished outcome carrying the references already computed. -/
def AnswerOrchestrator.answer (embed : String → List Rat)
    (search : String → List Rat → Nat → Except String (List SearchHit))
    (llm : String → Except String String)
    (sim : Candidate → Candidate → Rat)
    (req : QueryRequest) (cfg : RagConfig) : AnswerResult :=
  let p := CandidateRetriever.retrieve embed search req.question req.collections
    req.min_score cfg.initial_count
  let searched := req.collections.filter (fun c => !p.2.contains c)
  if p.1.isEmpty then
    { status := .noEvidence
      answer_text := ""
      references := []
      collections_searched := searched
      diagnostics := { failed_collections := p.2, truncated := false, no_evidence := true } }
  else
    let refs := DiversityRanker.select sim p.1 cfg.final_count cfg.diversity_weight
    let ctx := ContextAssembler.assemble refs cfg.max_length
    match llm (String.mk ctx.text ++ req.question) with
    | .ok ans =>
      { status := .ok
        answer_text := ans
        references := refs
        collections_searched := searched
        diagnostics :=
          { failed_collections := p.2, truncated := ctx.truncated, no_evidence := false } }
    | .error e =>
      { status := .generationFailed e
        answer_text := ""
        references := refs
        collections_searched := searched
        diagnostics :=
          { failed_collections := p.2, truncated := ctx.truncated, no_evidence := false } }

/-- The candidates one collection contributes to the merge: its hits on
success, nothing on failure. -/
def okCands (search : String → List Rat → Nat → Except String (List SearchHit))
    (qv : List Rat) (initial_count : Nat) (c : String) : List Candidate :=
  match search c qv initial_count with
  | .ok hits => hits.map (fun h => ⟨h.payload, h.score, c⟩)
  | .error _ => []

/-- Whether a collection's VectorIndex query fails. -/
def isFailedCol (search : String → List Rat → Nat → Except String (List SearchHit))
    (qv : List Rat) (initial_count : Nat) (c : String) : Bool :=
  match search c qv initial_count with
  | .ok _ => false
  | .error _ => true

/-- All candidates contributed by a list of collections, in collection
iteration order then per-collection rank. -/
def mergedOk (search : String → List Rat → Nat → Except String (List SearchHit))
    (qv : List Rat) (initial_count : Nat) : List String → List Candidate
  | [] => []
  | c :: cs => okCands search qv initial_count c ++ mergedOk search qv initial_count cs

end RagCore


namespace ChatFrontend

/-- `takeDigits` splits a text into its maximal leading digit run and
the remainder. -/
theorem takeDigits_spec (l : List Char) :
    l = (takeDigits l).1 ++ (takeDigits l).2 ∧ ∀ c ∈ (takeDigits l).1, c.isDigit := by
  induction l with
  | nil => simp [takeDigits]
  | cons c rest ih =>
    by_cases h : c.isDigit
    · simp only [takeDigits, if_pos h]
      refine ⟨by simpa using ih.1, ?_⟩
      intro x hx
      rcases List.mem_cons.mp hx with hx | hx
      · subst hx; exact h
      · exact ih.2 x hx
    · simp [takeDigits, h]

/-- `matchCite cs = some (ds, r)` exactly decomposes the text as the
literal marker followed by the rest: `cs = '[' :: ds ++ ']' :: r`, with
`ds` a nonempty run of digits. -/
theorem matchCite_spec : ∀ {cs ds r}, matchCite cs = some (ds, r) →
    cs = '[' :: ds ++ ']' :: r ∧ ds ≠ [] ∧ ∀ c ∈ ds, c.isDigit := by
  intro cs ds r h
  match cs with
  | [] => simp [matchCite] at h
  | c :: rest =>
    simp only [matchCite] at h
    split_ifs at h with hc hd
    · split at h
      · rename_i r' hr
        injection h with h
        injection h with h1 h2
        have hspec := takeDigits_spec rest
        have hrest : rest = ds ++ ']' :: r := by
          rw [← h1, ← h2]
          conv_lhs => rw [hspec.1]
          rw [hr]
        refine ⟨by rw [hc, hrest]; simp, ?_, ?_⟩
        · intro hnil
          exact hd (by rw [h1, hnil]; rfl)
        · intro c hcd
          exact hspec.2 c (by rw [h1]; exact hcd)
      · cases h

/-- Any citation part in the output of `parseCitations` stores the
resolved index when it is in range of the reference list and `-1`
otherwise. -/
theorem citation_mem_parse {t : List Char} {refs : List SourceReference}
    {cmap : Option (List (Nat × Int))} {n : Nat} {i : Int}
    (h : Part.citation n i ∈ parseCitations t refs cmap) :
    i = if 0 ≤ resolveRefIndex cmap n ∧ resolveRefIndex cmap n < (refs.length : Int)
        then resolveRefIndex cmap n else -1 := by
  simp only [parseCitations] at h
  split at h
  · obtain ⟨raw, hmem, hraw⟩ := List.mem_map.mp h
    cases raw with
    | text cs => simp [toPart] at hraw
    | cite ds =>
      simp only [toPart] at hraw
      split at hraw
      · rename_i hin
        cases hraw
        rw [if_pos hin]
      · rename_i hout
        cases hraw
        rw [if_neg hout]
  · simp at h

/-- C1: every citation marker whose resolved index (by override or by
the default `n-1` rule) lies outside `[0, references.length)` is stored
with the unresolved mark `-1` — never clamped, wrapped, or replaced by a
nearby in-range index — and renders as the distinct "unavailable" badge,
which differs from the rendering of every resolved citation. -/
theorem citation_out_of_range_unresolved (text : List Char) (refs : List SourceReference)
    (cmap : Option (List (Nat × Int))) (n : Nat) (i : Int)
    (hmem : Part.citation n i ∈ parseCitations text refs cmap)
    (hout : ¬ (0 ≤ resolveRefIndex cmap n ∧ resolveRefIndex cmap n < (refs.length : Int))) :
    i = -1 ∧ renderPart refs (.citation n i) = .unavailable n ∧
      ∀ m j ref, renderPart refs (.citation n i) ≠ .link m j ref := by
  have hi : i = -1 := by
    have h := citation_mem_parse hmem
    rwa [if_neg hout] at h
  subst hi
  have hr : renderPart refs (.citation n (-1)) = .unavailable n := by
    simp [renderPart]
  exact ⟨rfl, hr, fun m j ref hlink => by rw [hr] at hlink; cases hlink⟩

/-- Witness for `citation_out_of_range_unresolved` at the marker `[5]`
against a single reference and no override map. -/
theorem citation_out_of_range_unresolved_witness :
    (-1 : Int) = -1 ∧
      renderPart [⟨"t", "c"⟩] (.citation 5 (-1)) = .unavailable 5 ∧
      renderPart [⟨"t", "c"⟩] (.citation 5 (-1)) ≠ .link 5 0 ⟨"t", "c"⟩ :=
  have h := citation_out_of_range_unresolved "[5]".data [⟨"t", "c"⟩] none 5 (-1)
    (by decide) (by decide)
  ⟨h.1, h.2.1, h.2.2 5 0 ⟨"t", "c"⟩⟩

/-- C2: a citation marker `[n]` maps to the override entry for `n` when
an override map is provided and contains one, and to `n-1` otherwise
(override map absent, or no entry for `n`); the stored reference index
equals that resolved value whenever it is in range. -/
theorem citation_default_mapping (text : List Char) (refs : List SourceReference)
    (cmap : Option (List (Nat × Int))) (n : Nat) (i : Int)
    (hmem : Part.citation n i ∈ parseCitations text refs cmap) :
    (∀ m v, cmap = some m → lookupCM m n = some v →
        0 ≤ v → v < (refs.length : Int) → i = v) ∧
    (∀ m, cmap = some m → lookupCM m n = none →
        0 ≤ (n : Int) - 1 → (n : Int) - 1 < (refs.length : Int) → i = (n : Int) - 1) ∧
    (cmap = none →
        0 ≤ (n : Int) - 1 → (n : Int) - 1 < (refs.length : Int) → i = (n : Int) - 1) := by
  have h := citation_mem_parse hmem
  refine ⟨?_, ?_, ?_⟩
  · intro m v hm hv h0 hlt
    have hres : resolveRefIndex cmap n = v := by
      simp [resolveRefIndex, hm, hv]
    rw [hres, if_pos ⟨h0, hlt⟩] at h
    exact h
  · intro m hm hv h0 hlt
    have hres : resolveRefIndex cmap n = (n : Int) - 1 := by
      simp [resolveRefIndex, hm, hv]
    rw [hres, if_pos ⟨h0, hlt⟩] at h
    exact h
  · intro hm h0 hlt
    have hres : resolveRefIndex cmap n = (n : Int) - 1 := by
      simp [resolveRefIndex, hm]
    rw [hres, if_pos ⟨h0, hlt⟩] at h
    exact h

/-- Witness for `citation_default_mapping`: with override map
`{2 ↦ 0}`, the marker `[2]` maps to index `0`; with no map, the marker
`[1]` maps to index `0 = 1 - 1`. -/
theorem citation_default_mapping_witness :
    (0 : Int) = 0 ∧ (0 : Int) = (1 : Int) - 1 :=
  ⟨(citation_default_mapping "[2]".data [⟨"t", "c"⟩] (some [(2, 0)]) 2 0
      (by decide)).1 [(2, 0)] 0 rfl (by decide) (by decide) (by decide),
   (citation_default_mapping "[1]".data [⟨"t", "c"⟩] none 1 0
      (by decide)).2.2 rfl (by decide) (by decide)⟩

/-- C10: a conversation restored from a stored session has an empty
reference list and a null citation map, so every citation marker `[n]`
with `n ≥ 1` in a restored answer resolves to `n-1` by the default
rule, is out of range of the empty reference list, and renders as
unresolved. -/
theorem restored_citations_unresolved (conv : Conversation) (idx : Nat) :
    (restoreMessage conv idx).references = [] ∧
    (restoreMessage conv idx).citation_map = none ∧
    ∀ n i, Part.citation n i ∈
        parseCitations (restoreMessage conv idx).answer.data
          (restoreMessage conv idx).references (restoreMessage conv idx).citation_map →
      1 ≤ n →
        resolveRefIndex none n = (n : Int) - 1 ∧ i = -1 ∧
          renderPart [] (.citation n i) = .unavailable n := by
  refine ⟨rfl, rfl, ?_⟩
  intro n i hmem hn
  have hres : resolveRefIndex none n = (n : Int) - 1 := rfl
  have hout : ¬ (0 ≤ resolveRefIndex (restoreMessage conv idx).citation_map n ∧
      resolveRefIndex (restoreMessage conv idx).citation_map n <
        (((restoreMessage conv idx).references).length : Int)) := by
    intro hc
    have := hc.2
    simp [restoreMessage] at this
    omega
  have h := citation_mem_parse hmem
  rw [if_neg hout] at h
  subst h
  exact ⟨hres, rfl, by simp [renderPart]⟩

/-- Witness for `restored_citations_unresolved` on a restored answer
containing the marker `[1]`. -/
theorem restored_citations_unresolved_witness :
    resolveRefIndex none 1 = (1 : Int) - 1 ∧ (-1 : Int) = -1 ∧
      renderPart [] (.citation 1 (-1)) = .unavailable 1 :=
  (restored_citations_unresolved ⟨"c1", "q", "See [1]."⟩ 0).2.2 1 (-1)
    (by decide) (by decide)

/-- `joinRaw` distributes over list append. -/
theorem joinRaw_append (l1 l2 : List RawPart) :
    joinRaw (l1 ++ l2) = joinRaw l1 ++ joinRaw l2 := by
  induction l1 with
  | nil => simp [joinRaw]
  | cons p rest ih =>
    cases p with
    | text s => simp [joinRaw, ih]
    | cite ds => simp [joinRaw, ih]

/-- `takeDigits` stops exactly at a closing bracket after a digit run. -/
theorem takeDigits_digits_bracket (d tail : List Char) (hd : ∀ c ∈ d, c.isDigit) :
    takeDigits (d ++ ']' :: tail) = (d, ']' :: tail) := by
  induction d with
  | nil => simp [takeDigits]
  | cons c cs ih =>
    have hc : c.isDigit := hd c (by simp)
    have ihc := ih (fun x hx => hd x (by simp [hx]))
    simp [takeDigits, hc, ihc]

/-- A citation match at the head of a text survives appending more text
after it. -/
theorem matchCite_append {b ds r : List Char} (t : List Char)
    (h : matchCite b = some (ds, r)) : matchCite (b ++ t) = some (ds, r ++ t) := by
  obtain ⟨hb, hne, hd⟩ := matchCite_spec h
  subst hb
  have htd : takeDigits (ds ++ ']' :: (r ++ t)) = (ds, ']' :: (r ++ t)) :=
    takeDigits_digits_bracket ds (r ++ t) hd
  have hcons : ('[' :: ds ++ ']' :: r) ++ t = '[' :: (ds ++ ']' :: (r ++ t)) := by
    simp
  have hemp : ds.isEmpty = false := by
    cases ds with
    | nil => exact absurd rfl hne
    | cons _ _ => rfl
  rw [hcons]
  simp [matchCite, htd, hemp]

/-- A text none of whose suffixes starts a citation match contains no
occurrence of the citation pattern. -/
theorem hasCite_eq_false (s : List Char)
    (h : ∀ a b, s = a ++ b → matchCite b = none) : hasCite s = false := by
  induction s with
  | nil => rfl
  | cons c rest ih =>
    have h0 : matchCite (c :: rest) = none := h [] (c :: rest) rfl
    have hrest : hasCite rest = false :=
      ih (fun a b hab => h (c :: a) b (by simp [hab]))
    simp [hasCite, h0, hrest]

/-- The regex scan loses no characters: concatenating the raw parts
(citations as their literal matched text) rebuilds the pending
accumulator followed by the remaining input, for any fuel. -/
theorem scan_join : ∀ (fuel : Nat) (acc cs : List Char),
    joinRaw (scanParts fuel acc cs) = acc.reverse ++ cs
  | 0, acc, cs => by
    simp only [scanParts]
    split
    · rename_i h
      simp only [List.isEmpty_iff] at h
      simp [joinRaw, h]
    · simp [joinRaw]
  | fuel + 1, acc, cs => by
    match cs with
    | [] =>
      simp only [scanParts]
      split
      · rename_i h
        simp only [List.isEmpty_iff] at h
        simp [joinRaw, h]
      · simp [joinRaw]
    | c :: rest =>
      simp only [scanParts]
      split
      · rename_i ds r hm
        obtain ⟨hb, hne, hd⟩ := matchCite_spec hm
        rw [joinRaw_append]
        have hj := scan_join fuel [] r
        simp only [List.reverse_nil, List.nil_append] at hj
        by_cases ha : acc.isEmpty
        · simp only [List.isEmpty_iff] at ha
          simp [ha, joinRaw, hj, hb]
        · simp only [if_neg ha]
          simp [joinRaw, hj, hb]
      · rename_i hm
        have hj := scan_join fuel (c :: acc) rest
        rw [hj]
        simp

/-- Splitting a snoc list at a nonempty suffix: the suffix ends with the
final element. -/
theorem suffix_of_snoc {l a b : List Char} {c : Char}
    (h : l ++ [c] = a ++ b) (hb : b ≠ []) :
    ∃ b0, b = b0 ++ [c] ∧ l = a ++ b0 := by
  rcases List.eq_nil_or_concat b with rfl | ⟨b0, x, rfl⟩
  · exact absurd rfl hb
  · rw [List.concat_eq_append] at h ⊢
    have h' : l ++ [c] = (a ++ b0) ++ [x] := by simp [h]
    obtain ⟨h1, h2⟩ := List.append_inj' h' rfl
    injection h2 with h2
    subst h2
    exact ⟨b0, rfl, h1⟩

/-- Plain-text parts produced by the regex scan contain no occurrence of
the citation pattern, provided no pending suffix of the accumulator
starts a match and the fuel covers the remaining input. -/
theorem scan_text_noCite : ∀ (fuel : Nat) (acc cs : List Char), cs.length ≤ fuel →
    (∀ a b, acc.reverse = a ++ b → b ≠ [] → matchCite (b ++ cs) = none) →
    ∀ s, RawPart.text s ∈ scanParts fuel acc cs → hasCite s = false
  | 0, acc, cs, hf, hinv, s, hs => by
    have hcs : cs = [] := List.length_eq_zero.mp (Nat.le_zero.mp hf)
    subst hcs
    simp only [scanParts] at hs
    split at hs
    · simp at hs
    · simp only [List.append_nil, List.mem_singleton] at hs
      injection hs with hs
      subst hs
      refine hasCite_eq_false _ (fun a b hab => ?_)
      rcases b with _ | ⟨x, xs⟩
      · rfl
      · simpa using hinv a (x :: xs) hab (by simp)
  | fuel + 1, acc, cs, hf, hinv, s, hs => by
    match cs with
    | [] =>
      simp only [scanParts] at hs
      split at hs
      · simp at hs
      · simp only [List.mem_singleton] at hs
        injection hs with hs
        subst hs
        refine hasCite_eq_false _ (fun a b hab => ?_)
        rcases b with _ | ⟨x, xs⟩
        · rfl
        · simpa using hinv a (x :: xs) hab (by simp)
    | c :: rest =>
      simp only [scanParts] at hs
      split at hs
      · rename_i ds r hm
        rw [List.mem_append] at hs
        rcases hs with hs | hs
        · have hacc : ¬ acc.isEmpty := by
            intro hE
            rw [if_pos hE] at hs
            simp at hs
          rw [if_neg hacc, List.mem_singleton] at hs
          injection hs with hs
          subst hs
          refine hasCite_eq_false _ (fun a b hab => ?_)
          rcases b with _ | ⟨x, xs⟩
          · rfl
          · rcases hmt : matchCite (x :: xs) with _ | ⟨ds', r'⟩
            · rfl
            · exfalso
              have hap := matchCite_append (c :: rest) hmt
              rw [hinv a (x :: xs) hab (by simp)] at hap
              cases hap
        · rcases List.mem_cons.mp hs with hs | hs
          · cases hs
          · refine scan_text_noCite fuel [] r ?_ ?_ s hs
            · obtain ⟨hb, hne, _⟩ := matchCite_spec hm
              have hlen := congrArg List.length hb
              simp only [List.length_cons, List.length_append] at hlen
              have hds : 0 < ds.length := List.length_pos.mpr hne
              simp only [List.length_cons] at hf
              omega
            · intro a b hab hb
              have : a = [] ∧ b = [] := by
                constructor
                · cases a with
                  | nil => rfl
                  | cons y ys => simp at hab
                · cases b with
                  | nil => rfl
                  | cons y ys => cases a <;> simp at hab
              exact absurd this.2 hb
      · rename_i hm
        refine scan_text_noCite fuel (c :: acc) rest
          (by simp only [List.length_cons] at hf; omega) ?_ s hs
        intro a b hab hb
        simp only [List.reverse_cons] at hab
        obtain ⟨b0, rfl, hsplit⟩ := suffix_of_snoc hab hb
        by_cases hb0 : b0 = []
        · subst hb0
          simpa using hm
        · have := hinv a b0 hsplit hb0
          simpa using this

/-- With an empty accumulator the scan invariant of
`scan_text_noCite` holds vacuously. -/
theorem acc_nil_inv (cs : List Char) :
    ∀ a b, ([] : List Char).reverse = a ++ b → b ≠ [] → matchCite (b ++ cs) = none := by
  intro a b hab hb
  exact absurd (List.append_eq_nil.mp (by simpa using hab.symm)).2 hb

/-- Mapping raw parts through `toPart` preserves the flattened text,
provided every citation's digits are the canonical numeral of their
value. -/
theorem flatten_map_toPart (refs : List SourceReference)
    (cmap : Option (List (Nat × Int))) (raws : List RawPart)
    (h : ∀ p ∈ raws, canonicalCite p = true) :
    flattenParts (raws.map (toPart refs cmap)) = joinRaw raws := by
  induction raws with
  | nil => rfl
  | cons p rest ih =>
    have hrest := ih (fun q hq => h q (by simp [hq]))
    cases p with
    | text s => simp [toPart, flattenParts, joinRaw, hrest]
    | cite ds =>
      have hc := h (.cite ds) (by simp)
      simp only [canonicalCite] at hc
      have hds : Nat.toDigits 10 (digitsVal ds) = ds := eq_of_beq hc
      simp only [toPart, List.map_cons]
      split
      · simp [flattenParts, joinRaw, markerText, hds, hrest]
      · simp [flattenParts, joinRaw, markerText, hds, hrest]

/-- C9 (amended): `parseCitations` splits the answer into plain-text and
citation parts with no occurrence of the citation pattern left inside a
plain-text part, and — provided every matched marker's digit string is
the canonical decimal numeral of its value (no leading zeros) —
concatenating the parts in order, rendering each citation as its marker
text `[num]`, reproduces the original answer text exactly. -/
theorem parse_citations_roundtrip (text : List Char) (refs : List SourceReference)
    (cmap : Option (List (Nat × Int)))
    (hnum : ∀ p ∈ scanParts text.length [] text, canonicalCite p = true) :
    flattenParts (parseCitations text refs cmap) = text ∧
    ∀ s, Part.text s ∈ parseCitations text refs cmap → hasCite s = false := by
  have hjoin := scan_join text.length [] text
  simp only [List.reverse_nil, List.nil_append] at hjoin
  by_cases hlen : ((scanParts text.length [] text).map (toPart refs cmap)).length > 0
  · constructor
    · simp only [parseCitations, if_pos hlen]
      rw [flatten_map_toPart refs cmap _ hnum, hjoin]
    · intro s hs
      simp only [parseCitations, if_pos hlen] at hs
      obtain ⟨raw, hmem, hraw⟩ := List.mem_map.mp hs
      cases raw with
      | text cs =>
        simp only [toPart] at hraw
        injection hraw with hraw
        subst hraw
        exact scan_text_noCite text.length [] text le_rfl (acc_nil_inv text) _ hmem
      | cite ds =>
        simp only [toPart] at hraw
        split at hraw <;> cases hraw
  · have hmapnil : (scanParts text.length [] text).map (toPart refs cmap) = [] := by
      have := Nat.eq_zero_of_not_pos hlen
      exact List.length_eq_zero.mp this
    have hraws : scanParts text.length [] text = [] := List.map_eq_nil_iff.mp hmapnil
    have htext : text = [] := by
      rw [hraws] at hjoin
      simpa [joinRaw] using hjoin.symm
    subst htext
    constructor
    · simp [parseCitations, hmapnil, flattenParts]
    · intro s hs
      simp only [parseCitations, hmapnil] at hs
      simp only [List.length_nil, gt_iff_lt, Nat.lt_irrefl, if_false, List.mem_singleton] at hs
      injection hs with hs
      subst hs
      rfl

/-- Witness for `parse_citations_roundtrip` on a short answer with two
canonical markers. -/
theorem parse_citations_roundtrip_witness :
    flattenParts (parseCitations "See [1] and [12].".data [] none) =
      "See [1] and [12].".data :=
  (parse_citations_roundtrip "See [1] and [12].".data [] none (by decide)).1

/-- C9 counterexample: the marker `[01]` is parsed to the citation
number `1`, so re-rendering the parts yields `[1]` and drops the leading
zero — the concatenation does not reproduce the original answer text. -/
theorem parse_citations_roundtrip_counterexample :
    parseCitations "[01]".data [] none = [.citation 1 (-1)] ∧
    flattenParts (parseCitations "[01]".data [] none) = "[1]".data ∧
    flattenParts (parseCitations "[01]".data [] none) ≠ "[01]".data :=
  ⟨by decide, by decide, by decide⟩

end ChatFrontend


namespace RagCore

theorem selectBest_eq_none {f : Candidate → Rat} :
    ∀ {l : List Candidate}, selectBest f l = none → l = []
  | [], _ => rfl
  | c :: rest, h => by
    simp only [selectBest] at h
    rcases hsb : selectBest f rest with _ | ⟨b, rb⟩ <;> simp only [hsb] at h
    · cases h
    · split at h <;> cases h

theorem selectBest_mem {f : Candidate → Rat} :
    ∀ {l : List Candidate} {b rb}, selectBest f l = some (b, rb) → b ∈ l
  | [], b, rb, h => by cases h
  | c :: rest, b, rb, h => by
    simp only [selectBest] at h
    rcases hsb : selectBest f rest with _ | ⟨b', rb'⟩ <;> simp only [hsb] at h
    · injection h with h
      injection h with h1 h2
      subst h1
      exact List.mem_cons_self _ _
    · split at h
      · injection h with h
        injection h with h1 h2
        subst h1
        exact List.mem_cons_of_mem c (selectBest_mem hsb)
      · injection h with h
        injection h with h1 h2
        subst h1
        exact List.mem_cons_self _ _

theorem selectBest_congr {f g : Candidate → Rat} :
    ∀ {l : List Candidate}, (∀ c ∈ l, f c = g c) → selectBest f l = selectBest g l
  | [], _ => rfl
  | c :: rest, h => by
    have ih := selectBest_congr (l := rest) (fun x hx => h x (List.mem_cons_of_mem c hx))
    simp only [selectBest]
    rw [← ih]
    rcases hsb : selectBest f rest with _ | ⟨b, rb⟩ <;> simp only [hsb]
    have hb := h b (List.mem_cons_of_mem c (selectBest_mem hsb))
    have hc := h c (List.mem_cons_self c rest)
    rw [hb, hc]

theorem sortDesc_cons (c : Candidate) (cs : List Candidate) :
    sortByScoreDesc (c :: cs) = insertDesc c (sortByScoreDesc cs) := rfl

/-- Extracting the first highest-score candidate commutes with the
stable descending sort. -/
theorem selectBest_score_sort :
    ∀ {l b rb}, selectBest (fun c : Candidate => c.score) l = some (b, rb) →
      sortByScoreDesc l = b :: sortByScoreDesc rb
  | [], b, rb, h => by cases h
  | c :: cs, b, rb, h => by
    simp only [selectBest] at h
    rcases hsb : selectBest (fun c : Candidate => c.score) cs with _ | ⟨b', rb'⟩ <;>
      simp only [hsb] at h
    · injection h with h
      injection h with h1 h2
      have hcs : cs = [] := selectBest_eq_none hsb
      subst hcs
      subst h1
      subst h2
      rfl
    · have ih := selectBest_score_sort hsb
      split at h
      · rename_i hgt
        injection h with h
        injection h with h1 h2
        subst h1
        subst h2
        rw [sortDesc_cons, ih, sortDesc_cons]
        simp only [insertDesc]
        rw [if_neg (not_le.mpr hgt)]
      · rename_i hle
        injection h with h
        injection h with h1 h2
        subst h1
        subst h2
        rw [sortDesc_cons, ih]
        simp only [insertDesc]
        rw [if_pos (not_lt.mp hle)]

/-- With `diversity_weight = 1` the MMR objective is the original
relevance score. -/
theorem mmrScore_one (sim : Candidate → Candidate → Rat)
    (selected : List Candidate) (c : Candidate) :
    mmrScore sim 1 selected c = c.score := by
  simp [mmrScore]

theorem mmrLoop_one (sim : Candidate → Candidate → Rat) :
    ∀ (k : Nat) (rem sel : List Candidate),
      mmrLoop sim 1 k rem sel = sel.reverse ++ (sortByScoreDesc rem).take k
  | 0, rem, sel => by simp [mmrLoop]
  | k + 1, rem, sel => by
    simp only [mmrLoop]
    rw [selectBest_congr (fun c _ => mmrScore_one sim sel c)]
    rcases hsb : selectBest (fun c : Candidate => c.score) rem with _ | ⟨b, rest⟩ <;>
      simp only [hsb]
    · have hrem : rem = [] := selectBest_eq_none hsb
      subst hrem
      simp [sortByScoreDesc]
    · rw [mmrLoop_one sim k rest (b :: sel), selectBest_score_sort hsb]
      simp

/-- C4: with `diversity_weight = 1.0` the MMR selection degenerates to
plain top-K: the output is the top `final_count` candidates in
descending order of original relevance score (stable for ties). -/
theorem mmr_degenerates_to_topk (sim : Candidate → Candidate → Rat)
    (candidates : List Candidate) (final_count : Nat) :
    DiversityRanker.select sim candidates final_count 1 =
      (sortByScoreDesc candidates).take final_count := by
  have h := mmrLoop_one sim final_count candidates []
  simpa [DiversityRanker.select] using h

/-- Extracting the best candidate permutes the candidate list. -/
theorem selectBest_perm {f : Candidate → Rat} :
    ∀ {l b rb}, selectBest f l = some (b, rb) → l.Perm (b :: rb)
  | [], b, rb, h => by cases h
  | c :: cs, b, rb, h => by
    simp only [selectBest] at h
    rcases hsb : selectBest f cs with _ | ⟨b', rb'⟩ <;> simp only [hsb] at h
    · injection h with h
      injection h with h1 h2
      have hcs : cs = [] := selectBest_eq_none hsb
      subst hcs
      subst h1
      subst h2
      exact List.Perm.refl _
    · have ih := selectBest_perm hsb
      split at h
      · injection h with h
        injection h with h1 h2
        subst h1
        subst h2
        exact (ih.cons c).trans (List.Perm.swap _ _ _)
      · injection h with h
        injection h with h1 h2
        subst h1
        subst h2
        exact List.Perm.refl _

/-- The MMR output is drawn from the pending selection and the remaining
candidates without replacement. -/
theorem mmrLoop_subperm (sim : Candidate → Candidate → Rat) (w : Rat) :
    ∀ (k : Nat) (rem sel : List Candidate),
      (mmrLoop sim w k rem sel).Subperm (sel.reverse ++ rem)
  | 0, rem, sel => by
    simp only [mmrLoop]
    exact (List.sublist_append_left _ _).subperm
  | k + 1, rem, sel => by
    simp only [mmrLoop]
    rcases hsb : selectBest (mmrScore sim w sel) rem with _ | ⟨b, rest⟩ <;> simp only [hsb]
    · exact (List.sublist_append_left _ _).subperm
    · have ih := mmrLoop_subperm sim w k rest (b :: sel)
      refine ih.trans (List.Perm.subperm ?_)
      have h1 := (selectBest_perm hsb).symm
      have heq : (b :: sel).reverse ++ rest = sel.reverse ++ (b :: rest) := by simp
      rw [heq]
      exact List.Perm.append_left _ h1

theorem mmrLoop_length (sim : Candidate → Candidate → Rat) (w : Rat) :
    ∀ (k : Nat) (rem sel : List Candidate),
      (mmrLoop sim w k rem sel).length ≤ sel.length + k
  | 0, rem, sel => by simp [mmrLoop]
  | k + 1, rem, sel => by
    simp only [mmrLoop]
    rcases hsb : selectBest (mmrScore sim w sel) rem with _ | ⟨b, rest⟩ <;> simp only [hsb]
    · simp
    · have ih := mmrLoop_length sim w k rest (b :: sel)
      simp only [List.length_cons] at ih
      omega

/-- C6 (amended): the MMR output never exceeds `final_count` items —
unconditionally — and whenever the input candidate list carries pairwise
distinct passage ids, the output has no duplicate passage id either. -/
theorem select_nodup_ids (sim : Candidate → Candidate → Rat)
    (candidates : List Candidate) (final_count : Nat) (diversity_weight : Rat) :
    (DiversityRanker.select sim candidates final_count diversity_weight).length ≤
      final_count ∧
    ((candidates.map (fun c => c.passage.id)).Nodup →
      ((DiversityRanker.select sim candidates final_count diversity_weight).map
        (fun c => c.passage.id)).Nodup) := by
  constructor
  · have hl := mmrLoop_length sim diversity_weight final_count candidates []
    simpa [DiversityRanker.select] using hl
  · intro h
    have hsub := mmrLoop_subperm sim diversity_weight final_count candidates []
    simp only [List.reverse_nil, List.nil_append] at hsub
    obtain ⟨l, hlp, hls⟩ := hsub
    have hn : (l.map (fun c => c.passage.id)).Nodup := (hls.map _).nodup h
    exact ((hlp.map (fun c => c.passage.id)).nodup_iff).mp hn

/-- Witness for `select_nodup_ids` on two candidates with distinct
passage ids. -/
theorem select_nodup_ids_witness :
    (DiversityRanker.select (fun _ _ => 0)
        [⟨⟨"p1", "t", "T"⟩, 1, "col"⟩, ⟨⟨"p2", "u", "U"⟩, 1, "col"⟩] 1 1).length ≤ 1 ∧
    ((DiversityRanker.select (fun _ _ => 0)
        [⟨⟨"p1", "t", "T"⟩, 1, "col"⟩, ⟨⟨"p2", "u", "U"⟩, 1, "col"⟩] 1 1).map
        (fun c => c.passage.id)).Nodup :=
  have h := select_nodup_ids (fun _ _ => 0)
    [⟨⟨"p1", "t", "T"⟩, 1, "col"⟩, ⟨⟨"p2", "u", "U"⟩, 1, "col"⟩] 1 1
  ⟨h.1, h.2 (by decide)⟩

/-- One step of the MMR loop under a successful extraction. -/
theorem mmrLoop_step (sim : Candidate → Candidate → Rat) (w : Rat)
    (k : Nat) (rem sel : List Candidate) (b : Candidate) (rest : List Candidate)
    (h : selectBest (mmrScore sim w sel) rem = some (b, rest)) :
    mmrLoop sim w (k + 1) rem sel = mmrLoop sim w k rest (b :: sel) := by
  simp [mmrLoop, h]

/-- C6 counterexample: on a candidate list that already contains the
same passage twice, MMR selection returns it twice — the output has two
references with the same passage id `p1`. -/
theorem select_dup_counterexample :
    DiversityRanker.select (fun _ _ => 0)
        [⟨⟨"p1", "t", "T"⟩, 1, "col"⟩, ⟨⟨"p1", "t", "T"⟩, 1, "col"⟩] 2 1 =
      [⟨⟨"p1", "t", "T"⟩, 1, "col"⟩, ⟨⟨"p1", "t", "T"⟩, 1, "col"⟩] ∧
    ¬ ((DiversityRanker.select (fun _ _ => 0)
        [⟨⟨"p1", "t", "T"⟩, 1, "col"⟩, ⟨⟨"p1", "t", "T"⟩, 1, "col"⟩] 2 1).map
        (fun c => c.passage.id)).Nodup := by
  have s2 : selectBest (mmrScore (fun _ _ => 0) 1 [])
      [⟨⟨"p1", "t", "T"⟩, 1, "col"⟩, ⟨⟨"p1", "t", "T"⟩, 1, "col"⟩] =
      some (⟨⟨"p1", "t", "T"⟩, 1, "col"⟩, [⟨⟨"p1", "t", "T"⟩, 1, "col"⟩]) := by
    simp [selectBest]
  have s1 : selectBest (mmrScore (fun _ _ => 0) 1 [⟨⟨"p1", "t", "T"⟩, 1, "col"⟩])
      [⟨⟨"p1", "t", "T"⟩, 1, "col"⟩] =
      some (⟨⟨"p1", "t", "T"⟩, 1, "col"⟩, []) := rfl
  have key : DiversityRanker.select (fun _ _ => 0)
      [⟨⟨"p1", "t", "T"⟩, 1, "col"⟩, ⟨⟨"p1", "t", "T"⟩, 1, "col"⟩] 2 1 =
      [⟨⟨"p1", "t", "T"⟩, 1, "col"⟩, ⟨⟨"p1", "t", "T"⟩, 1, "col"⟩] := by
    show mmrLoop (fun _ _ => 0) 1 (1 + 1)
      [⟨⟨"p1", "t", "T"⟩, 1, "col"⟩, ⟨⟨"p1", "t", "T"⟩, 1, "col"⟩] [] = _
    rw [mmrLoop_step _ _ _ _ _ _ _ s2]
    show mmrLoop (fun _ _ => 0) 1 (0 + 1) _ _ = _
    rw [mmrLoop_step _ _ _ _ _ _ _ s1]
    rfl
  refine ⟨key, ?_⟩
  rw [key]
  decide

theorem insertDesc_perm (c : Candidate) (l : List Candidate) :
    (insertDesc c l).Perm (c :: l) := by
  induction l with
  | nil => exact List.Perm.refl _
  | cons x xs ih =>
    simp only [insertDesc]
    split
    · exact List.Perm.refl _
    · exact (ih.cons x).trans (List.Perm.swap _ _ _)

theorem sortByScoreDesc_perm (l : List Candidate) : (sortByScoreDesc l).Perm l := by
  induction l with
  | nil => exact List.Perm.refl _
  | cons x xs ih =>
    rw [sortDesc_cons]
    exact (insertDesc_perm x (sortByScoreDesc xs)).trans (ih.cons x)

theorem mem_sortByScoreDesc {x : Candidate} {l : List Candidate} :
    x ∈ sortByScoreDesc l ↔ x ∈ l :=
  (sortByScoreDesc_perm l).mem_iff

/-- The merge loop of `CandidateRetriever.retrieve` accumulates exactly
the successful collections' candidates in order and the failed
collection names in order. -/
theorem retrieve_foldl (search : String → List Rat → Nat → Except String (List SearchHit))
    (qv : List Rat) (k : Nat) :
    ∀ (cols : List String) (acc : List Candidate × List String),
      cols.foldl
        (fun (acc : List Candidate × List String) (c : String) =>
          match search c qv k with
          | .ok hits => (acc.1 ++ hits.map (fun h => ⟨h.payload, h.score, c⟩), acc.2)
          | .error _ => (acc.1, acc.2 ++ [c]))
        acc =
      (acc.1 ++ mergedOk search qv k cols,
       acc.2 ++ cols.filter (fun c => isFailedCol search qv k c))
  | [], acc => by simp [mergedOk]
  | c :: cs, acc => by
    simp only [List.foldl_cons]
    rw [retrieve_foldl search qv k cs]
    rcases hsc : search c qv k with e | hits
    · simp [mergedOk, okCands, isFailedCol, hsc]
    · simp [mergedOk, okCands, isFailedCol, hsc]

/-- Closed form of `CandidateRetriever.retrieve`: the merged successful
candidates, threshold-filtered and sorted by descending score, together
with the failed collection names. -/
theorem retrieve_eq (embed : String → List Rat)
    (search : String → List Rat → Nat → Except String (List SearchHit))
    (question : String) (collections : List String) (min_score : Rat)
    (initial_count : Nat) :
    CandidateRetriever.retrieve embed search question collections min_score initial_count =
      (sortByScoreDesc ((mergedOk search (embed question) initial_count collections).filter
          (fun cd => min_score ≤ cd.score)),
       collections.filter (fun c => isFailedCol search (embed question) initial_count c)) := by
  simp only [CandidateRetriever.retrieve]
  rw [retrieve_foldl]
  simp

/-- C5: every candidate returned by `CandidateRetriever.retrieve` has
similarity score at least `min_score`, and hence so does every reference
the orchestrator hands onward from `DiversityRanker.select`. -/
theorem retrieve_min_score (embed : String → List Rat)
    (search : String → List Rat → Nat → Except String (List SearchHit))
    (llm : String → Except String String) (sim : Candidate → Candidate → Rat)
    (req : QueryRequest) (cfg : RagConfig) :
    (∀ cd ∈ (CandidateRetriever.retrieve embed search req.question req.collections
        req.min_score cfg.initial_count).1, req.min_score ≤ cd.score) ∧
    (∀ r ∈ (AnswerOrchestrator.answer embed search llm sim req cfg).references,
        req.min_score ≤ r.score) := by
  have hmain : ∀ cd ∈ (CandidateRetriever.retrieve embed search req.question req.collections
      req.min_score cfg.initial_count).1, req.min_score ≤ cd.score := by
    intro cd hcd
    rw [retrieve_eq] at hcd
    simp only [mem_sortByScoreDesc, List.mem_filter] at hcd
    exact of_decide_eq_true hcd.2
  refine ⟨hmain, ?_⟩
  have hrefs : (AnswerOrchestrator.answer embed search llm sim req cfg).references = [] ∨
      (AnswerOrchestrator.answer embed search llm sim req cfg).references =
        DiversityRanker.select sim
          (CandidateRetriever.retrieve embed search req.question req.collections
            req.min_score cfg.initial_count).1 cfg.final_count cfg.diversity_weight := by
    simp only [AnswerOrchestrator.answer]
    split
    · exact Or.inl rfl
    · split
      · exact Or.inr rfl
      · exact Or.inr rfl
  intro r hr
  rcases hrefs with hrefs | hrefs
  · rw [hrefs] at hr
    cases hr
  · rw [hrefs] at hr
    have hsub := mmrLoop_subperm sim cfg.diversity_weight cfg.final_count
      (CandidateRetriever.retrieve embed search req.question req.collections
        req.min_score cfg.initial_count).1 []
    simp only [List.reverse_nil, List.nil_append] at hsub
    exact hmain r (hsub.subset hr)

/-- Witness for `retrieve_min_score`: one collection returning a single
hit of score `1` with threshold `0`. -/
theorem retrieve_min_score_witness :
    (0 : Rat) ≤ (1 : Rat) :=
  (retrieve_min_score (fun _ => []) (fun _ _ _ => .ok [⟨"p", 1, ⟨"p", "t.", "T"⟩⟩])
      (fun _ => .ok "a") (fun _ _ => 0) ⟨"q", ["col"], 0⟩ ⟨20, 5, 1, 100⟩).1
    ⟨⟨"p", "t.", "T"⟩, 1, "col"⟩ (by decide)

/-- C7: when zero candidates survive the `min_score` filter the
orchestrator short-circuits with the distinguished no-evidence success:
status `noEvidence`, an empty reference list, the diagnostics flag set —
and the result does not depend on the LLM at all. -/
theorem no_evidence_short_circuit (embed : String → List Rat)
    (search : String → List Rat → Nat → Except String (List SearchHit))
    (llm : String → Except String String) (sim : Candidate → Candidate → Rat)
    (req : QueryRequest) (cfg : RagConfig)
    (h : (CandidateRetriever.retrieve embed search req.question req.collections
        req.min_score cfg.initial_count).1 = []) :
    (AnswerOrchestrator.answer embed search llm sim req cfg).status = .noEvidence ∧
    (AnswerOrchestrator.answer embed search llm sim req cfg).references = [] ∧
    (AnswerOrchestrator.answer embed search llm sim req cfg).diagnostics.no_evidence = true ∧
    ∀ llm2, AnswerOrchestrator.answer embed search llm2 sim req cfg =
      AnswerOrchestrator.answer embed search llm sim req cfg := by
  refine ⟨?_, ?_, ?_, ?_⟩ <;> simp [AnswerOrchestrator.answer, h]

/-- Witness for `no_evidence_short_circuit`: a vector index that returns
no hits for the only collection. -/
theorem no_evidence_short_circuit_witness :
    (AnswerOrchestrator.answer (fun _ => []) (fun _ _ _ => .ok []) (fun _ => .ok "a")
        (fun _ _ => 0) ⟨"q", ["col"], 0⟩ ⟨20, 5, 1, 100⟩).status = .noEvidence ∧
    (AnswerOrchestrator.answer (fun _ => []) (fun _ _ _ => .ok []) (fun _ => .ok "a")
        (fun _ _ => 0) ⟨"q", ["col"], 0⟩ ⟨20, 5, 1, 100⟩).references = [] ∧
    (AnswerOrchestrator.answer (fun _ => []) (fun _ _ _ => .ok []) (fun _ => .ok "a")
        (fun _ _ => 0) ⟨"q", ["col"], 0⟩ ⟨20, 5, 1, 100⟩).diagnostics.no_evidence = true ∧
    AnswerOrchestrator.answer (fun _ => []) (fun _ _ _ => .ok []) (fun _ => .error "down")
        (fun _ _ => 0) ⟨"q", ["col"], 0⟩ ⟨20, 5, 1, 100⟩ =
      AnswerOrchestrator.answer (fun _ => []) (fun _ _ _ => .ok []) (fun _ => .ok "a")
        (fun _ _ => 0) ⟨"q", ["col"], 0⟩ ⟨20, 5, 1, 100⟩ :=
  have h := no_evidence_short_circuit (fun _ => []) (fun _ _ _ => .ok []) (fun _ => .ok "a")
    (fun _ _ => 0) ⟨"q", ["col"], 0⟩ ⟨20, 5, 1, 100⟩ (by decide)
  ⟨h.1, h.2.1, h.2.2.1, h.2.2.2 (fun _ => .error "down")⟩

/-- The orchestrator's diagnostics always report exactly the retriever's
failed-collection list. -/
theorem answer_failed_collections (embed : String → List Rat)
    (search : String → List Rat → Nat → Except String (List SearchHit))
    (llm : String → Except String String) (sim : Candidate → Candidate → Rat)
    (req : QueryRequest) (cfg : RagConfig) :
    (AnswerOrchestrator.answer embed search llm sim req cfg).diagnostics.failed_collections =
      (CandidateRetriever.retrieve embed search req.question req.collections
        req.min_score cfg.initial_count).2 := by
  simp only [AnswerOrchestrator.answer]
  split
  · rfl
  · split <;> rfl

theorem mem_mergedOk (search : String → List Rat → Nat → Except String (List SearchHit))
    (qv : List Rat) (k : Nat) {x : Candidate} {c : String} :
    ∀ {cols : List String}, c ∈ cols → x ∈ okCands search qv k c →
      x ∈ mergedOk search qv k cols
  | [], hc, _ => absurd hc (List.not_mem_nil c)
  | c2 :: cs, hc, hx => by
    rcases List.mem_cons.mp hc with hc | hc
    · subst hc
      exact List.mem_append_left _ hx
    · exact List.mem_append_right _ (mem_mergedOk search qv k hc hx)

/-- C8: a failing collection never aborts the request — its name is
recorded in the orchestrator's diagnostics, while every
above-threshold hit of every successfully queried collection still
appears among the retriever's merged candidates. -/
theorem failing_collection_resilience (embed : String → List Rat)
    (search : String → List Rat → Nat → Except String (List SearchHit))
    (llm : String → Except String String) (sim : Candidate → Candidate → Rat)
    (req : QueryRequest) (cfg : RagConfig) (c : String) (e : String)
    (hc : c ∈ req.collections)
    (herr : search c (embed req.question) cfg.initial_count = .error e) :
    c ∈ (AnswerOrchestrator.answer embed search llm sim req cfg).diagnostics.failed_collections ∧
    ∀ c2 hits, c2 ∈ req.collections →
      search c2 (embed req.question) cfg.initial_count = .ok hits →
      ∀ h ∈ hits, req.min_score ≤ h.score →
        (⟨h.payload, h.score, c2⟩ : Candidate) ∈
          (CandidateRetriever.retrieve embed search req.question req.collections
            req.min_score cfg.initial_count).1 := by
  constructor
  · rw [answer_failed_collections, retrieve_eq]
    simp only [List.mem_filter]
    exact ⟨hc, by simp [isFailedCol, herr]⟩
  · intro c2 hits hc2 hok h hh hscore
    rw [retrieve_eq]
    simp only [mem_sortByScoreDesc, List.mem_filter]
    refine ⟨?_, by simpa using hscore⟩
    refine mem_mergedOk search (embed req.question) cfg.initial_count hc2 ?_
    simp only [okCands, hok]
    exact List.mem_map_of_mem _ hh

/-- Witness for `failing_collection_resilience`: three collections, the
middle one failing, a hit from the first still flowing forward. -/
theorem failing_collection_resilience_witness :
    "bad" ∈ (AnswerOrchestrator.answer (fun _ => [])
        (fun c _ _ => if c = "bad" then .error "broken"
          else .ok [⟨"p", 1, ⟨"p", "t.", "T"⟩⟩])
        (fun _ => .ok "a") (fun _ _ => 0)
        ⟨"q", ["a", "bad", "b"], 0⟩ ⟨20, 5, 1, 100⟩).diagnostics.failed_collections ∧
    (⟨⟨"p", "t.", "T"⟩, 1, "a"⟩ : Candidate) ∈
      (CandidateRetriever.retrieve (fun _ => [])
        (fun c _ _ => if c = "bad" then .error "broken"
          else .ok [⟨"p", 1, ⟨"p", "t.", "T"⟩⟩])
        "q" ["a", "bad", "b"] 0 20).1 :=
  have h := failing_collection_resilience (fun _ => [])
    (fun c _ _ => if c = "bad" then .error "broken"
      else .ok [⟨"p", 1, ⟨"p", "t.", "T"⟩⟩])
    (fun _ => .ok "a") (fun _ _ => 0)
    ⟨"q", ["a", "bad", "b"], 0⟩ ⟨20, 5, 1, 100⟩ "bad" "broken" (by decide) rfl
  ⟨h.1, h.2 "a" [⟨"p", 1, ⟨"p", "t.", "T"⟩⟩] (by decide) rfl
    ⟨"p", 1, ⟨"p", "t.", "T"⟩⟩ (by decide) (by decide)⟩

theorem formatRef_concat (r : Candidate) :
    formatRef r = ('[' :: r.passage.title.data ++ ']' :: ' ' :: r.passage.text.data) ++ ['\n'] := by
  simp [formatRef]

theorem formatRef_getLast (r : Candidate) : (formatRef r).getLast? = some '\n' := by
  rw [formatRef_concat]
  exact List.getLast?_concat _

theorem formatRef_ne_nil (r : Candidate) : formatRef r ≠ [] := by
  rw [formatRef_concat]
  simp

theorem head?_dropWhile (p : Char → Bool) :
    ∀ (l : List Char) {c : Char}, (l.dropWhile p).head? = some c → p c = false
  | [], c, h => by cases h
  | x :: xs, c, h => by
    rw [List.dropWhile_cons] at h
    split at h
    · exact head?_dropWhile p xs h
    · rename_i hpx
      injection h with h
      subst h
      exact Bool.of_not_eq_true hpx

/-- The boundary cut ends at a sentence or paragraph boundary whenever
it is nonempty. -/
theorem lastBoundaryCut_getLast {l : List Char} {c : Char}
    (h : (lastBoundaryCut l).getLast? = some c) : isBoundaryChar c := by
  simp only [lastBoundaryCut, List.getLast?_reverse] at h
  have := head?_dropWhile (fun c => !isBoundaryChar c) l.reverse h
  simpa using this

/-- The boundary cut never exceeds the length of its input. -/
theorem lastBoundaryCut_length (l : List Char) :
    (lastBoundaryCut l).length ≤ l.length := by
  simp only [lastBoundaryCut, List.length_reverse]
  calc (l.reverse.dropWhile (fun c => !isBoundaryChar c)).length
      ≤ l.reverse.length := (List.dropWhile_sublist _).length_le
    _ = l.length := List.length_reverse l

/-- Invariants of the assembly loop: the accumulated text never exceeds
the limit and always ends at a boundary character when nonempty. -/
theorem assembleGo_spec (max_length : Nat) :
    ∀ (refs : List Candidate) (txt : List Char), txt.length ≤ max_length →
      (∀ c, txt.getLast? = some c → isBoundaryChar c) →
      (assembleGo max_length refs txt).1.length ≤ max_length ∧
      (∀ c, (assembleGo max_length refs txt).1.getLast? = some c → isBoundaryChar c)
  | [], txt, hlen, hlast => ⟨hlen, hlast⟩
  | r :: rest, txt, hlen, hlast => by
    simp only [assembleGo]
    split
    · rename_i hfits
      refine assembleGo_spec max_length rest (txt ++ formatRef r) ?_ ?_
      · simpa using hfits
      · intro c hc
        rw [List.getLast?_append_of_ne_nil _ (formatRef_ne_nil r), formatRef_getLast] at hc
        injection hc with hc
        subst hc
        rfl
    · constructor
      · simp only [List.length_append]
        have h1 := lastBoundaryCut_length ((formatRef r).take (max_length - txt.length))
        have h2 := List.length_take_le (max_length - txt.length) (formatRef r)
        omega
      · intro c hc
        rcases hcut : lastBoundaryCut ((formatRef r).take (max_length - txt.length)) with _ | ⟨x, xs⟩
        · rw [hcut] at hc
          simp only [List.append_nil] at hc
          exact hlast c hc
        · rw [hcut, List.getLast?_append_of_ne_nil _ (by simp)] at hc
          rw [← hcut] at hc
          exact lastBoundaryCut_getLast hc

/-- C3: the assembled context never exceeds `max_length` characters and
never ends mid-word — whenever the text is nonempty its final character
is a sentence or paragraph boundary. -/
theorem assemble_length_bound (references : List Candidate) (max_length : Nat) :
    (ContextAssembler.assemble references max_length).text.length ≤ max_length ∧
    ∀ c, (ContextAssembler.assemble references max_length).text.getLast? = some c →
      isBoundaryChar c := by
  have h := assembleGo_spec max_length references [] (by simp) (by intro c hc; cases hc)
  exact ⟨h.1, h.2⟩

/-- Witness for `assemble_length_bound`: a single passage whose
formatted text overflows a 10-character limit and is cut back to the
sentence boundary after `One.`. -/
theorem assemble_length_bound_witness :
    (ContextAssembler.assemble [⟨⟨"p", "One. Two.", "T"⟩, 1, "col"⟩] 10).text.length ≤ 10 ∧
    isBoundaryChar '.' = true :=
  have h := assemble_length_bound [⟨⟨"p", "One. Two.", "T"⟩, 1, "col"⟩] 10
  ⟨h.1, h.2 '.' (by decide)⟩

end RagCore
